import Mathlib

/-!
Verification of the specifier-resolution core of a Babel module-resolver
plugin, shallowly embedded from `src/index.js`.

Strings are Lean `String`s; most computation is done on their underlying
`List Char` data.  The external filesystem probe (`resolve.sync` together
with the `path.resolve` applied to the root directory, both external
collaborators) is an abstract function parameter of type `Fs`.  The Node
`path` helpers used by the source (`extname`, `basename`, `dirname`,
`join`) are embedded concretely with POSIX semantics for paths without
trailing slashes — the only shapes the plugin ever feeds them.
-/

namespace ModuleResolver

/-- Split a character list at a separator character; JS
`String.prototype.split` semantics with a one-character separator:
the result is never empty, and empty fields are kept
(`"a//b"` ↦ `["a", "", "b"]`, `""` ↦ `[""]`). -/
def splitSep (sep : Char) : List Char → List (List Char)
  | [] => [[]]
  | c :: rest =>
    if c = sep then [] :: splitSep sep rest
    else
      match splitSep sep rest with
      | [] => [[c]]
      | g :: gs => (c :: g) :: gs

/-- Join character-list fields with a separator character; inverse of
`splitSep`. -/
def joinSep (sep : Char) : List (List Char) → List Char
  | [] => []
  | [g] => g
  | g :: g2 :: gs => g ++ sep :: joinSep sep (g2 :: gs)

/-- `source.split('/')` from the JS source, as a list of `String`s. -/
def splitSlash (s : String) : List String :=
  (splitSep '/' s.data).map (fun g => ⟨g⟩)

/-- `moduleSplit.join('/')` from the JS source. -/
def joinSlash : List String → String
  | [] => ""
  | [x] => x
  | x :: y :: xs => x ++ "/" ++ joinSlash (y :: xs)

/-- First character of a string, if any; models JS `s[0]` checks. -/
def strHead (s : String) : Option Char :=
  s.data.head?

/-- Last `/`-separated segment of a path (the raw basename; paths the
plugin manipulates carry no trailing slash). -/
def lastSeg (p : String) : String :=
  (splitSlash p).getLastD ""

/-- Node `path.extname` (POSIX): the suffix of the basename starting at
its last `.`, or `""` when the basename has no dot, when its only dot is
the leading character (dotfile), or when it is `".."`. -/
def extname (p : String) : String :=
  let b := lastSeg p
  if b = ".." then ""
  else
    let r := b.data.reverse.takeWhile (fun c => ¬ c = '.')
    if r.length + 1 < b.data.length then ⟨'.' :: r.reverse⟩ else ""

/-- Node `path.basename(p, ext)` (POSIX, no trailing slash): the last
segment, with the suffix `ext` removed when it is a proper suffix. -/
def basename (p ext : String) : String :=
  let b := lastSeg p
  if ext ≠ "" ∧ ¬ b = ext ∧ ext.data.isSuffixOf b.data then
    ⟨b.data.take (b.data.length - ext.data.length)⟩
  else b

/-- One step of POSIX path normalization over a segment list: drop empty
and `.` segments, let `..` cancel a preceding real segment (or survive at
the front of a relative path, or vanish at the root of an absolute one). -/
def normStep (absolute : Bool) (acc : List String) (s : String) : List String :=
  if s = "" ∨ s = "." then acc
  else if s = ".." then
    match acc.getLast? with
    | some l => if l = ".." then acc ++ [".."] else acc.dropLast
    | none => if absolute then [] else [".."]
  else acc ++ [s]

/-- POSIX path normalization over a segment list. -/
def normalizeSegs (absolute : Bool) (segs : List String) : List String :=
  segs.foldl (normStep absolute) []

/-- Node `path.normalize` (POSIX): collapse `.`/`..`/empty segments,
keeping a leading `/`; an empty result is `"."`. -/
def normalize (p : String) : String :=
  let absolute : Bool := match p.data with
    | '/' :: _ => true
    | _ => false
  let core := joinSlash (normalizeSegs absolute (splitSlash p))
  if absolute then "/" ++ core
  else if core = "" then "." else core

/-- Node `path.dirname` (POSIX, no trailing slash): everything before the
last `/`; `"."` when there is none, `"/"` for a top-level absolute path. -/
def dirname (p : String) : String :=
  match splitSlash p with
  | [] => "."
  | [_] => "."
  | parts =>
    let d := joinSlash parts.dropLast
    if d = "" then "/" else d

/-- Node `path.join(a, b)` (POSIX): concatenate the non-empty parts with
`/` and normalize; `"."` when everything is empty. -/
def pathJoin (a b : String) : String :=
  let joined := if a = "" then b else if b = "" then a else a ++ "/" ++ b
  if joined = "" then "." else normalize joined

/-- Modelled from the spec: `toPosix` from the Path Utilities (the file
`src/utils.js` is not present) — rewrite OS-specific directory separators
(backslashes) to forward slashes, with no other normalization. -/
def toPosixPath (p : String) : String :=
  ⟨p.data.map (fun c => if c = '\\' then '/' else c)⟩

/-- Modelled from the spec: `toExplicitRelative` from the Path Utilities
(`toLocalPath` in `src/utils.js`, not present) — prepend `./` unless the
path already begins with `./` or `../`. -/
def toLocalPath (p : String) : String :=
  if "./".data.isPrefixOf p.data ∨ "../".data.isPrefixOf p.data then p
  else "./" ++ p

/-- Relative-path segments from a base directory to a target, by shared
prefix elision and `..` ascents. -/
def relSegs : List String → List String → List String
  | f :: fs, t :: ts =>
    if f = t then relSegs fs ts
    else List.replicate (fs.length + 1) ".." ++ (t :: ts)
  | [], ts => ts
  | fs, [] => List.replicate fs.length ".."

/-- Modelled from the spec: `relativeFrom(fromFile, toFile)` from the Path
Utilities (the file `src/mapToRelative.js` is not present) — the relative
path from the directory containing `currentFile` to `module`, with
shared-prefix elision and `..` for ascents; pure, no disk access. -/
def mapToRelative (currentFile module : String) : String :=
  let fromSegs := normalizeSegs false (splitSlash (dirname currentFile))
  let toSegs := normalizeSegs false (splitSlash module)
  joinSlash (relSegs fromSegs toSegs)

/-- `replaceExt(p, ext)` from the source: strip the extension of `p`'s
basename and append `ext`, rejoining with the directory part. -/
def replaceExt (p ext : String) : String :=
  let filename := basename p (extname p) ++ ext
  pathJoin (dirname p) filename

/-- `aliasPath.replace(/^(npm:)/, '')` from the source: strip one leading
legacy `npm:` marker. -/
def stripNpm (aliasPath : String) : String :=
  if "npm:".data.isPrefixOf aliasPath.data then ⟨aliasPath.data.drop 4⟩
  else aliasPath

/-- Drop the first `n` characters of a string. -/
def strDrop (s : String) (n : Nat) : String :=
  ⟨s.data.drop n⟩

/-- JS `GetSubstitution` applied to a string replacement: `$$` becomes a
single dollar, `$&` the matched text, a dollar followed by the character
96 (the backquote) the text before the match, a dollar followed by the
character 39 (the straight quote) the text after the match; any other
dollar is literal (a string search value has no capture groups, so `$n`
and named references stay literal), and scanning resumes after the
consumed characters. -/
def substDollar (matched before after : List Char) : List Char → List Char
  | [] => []
  | [c] => [c]
  | c1 :: c2 :: rest =>
    if c1 = '$' then
      if c2 = '$' then '$' :: substDollar matched before after rest
      else if c2 = '&' then matched ++ substDollar matched before after rest
      else if c2 = Char.ofNat 96 then before ++ substDollar matched before after rest
      else if c2 = Char.ofNat 39 then after ++ substDollar matched before after rest
      else c1 :: substDollar matched before after (c2 :: rest)
    else c1 :: substDollar matched before after (c2 :: rest)

/-- Split a character list around the first occurrence (scanning left to
right) of a non-empty pattern: the part before the match and the part
after it, or `none` when the pattern does not occur. -/
def firstOcc (pat : List Char) : List Char → Option (List Char × List Char)
  | [] => none
  | c :: cs =>
    if pat.isPrefixOf (c :: cs) then some ([], (c :: cs).drop pat.length)
    else
      match firstOcc pat cs with
      | some (b, a) => some (c :: b, a)
      | none => none

/-- JS `s.replace(pat, rep)` with a plain-string `pat`: substitute the
first occurrence only, applying `GetSubstitution` to the replacement
(`substDollar`); an empty pattern matches at position 0 with an empty
matched text. -/
def replaceFirst (s pat rep : String) : String :=
  if pat = "" then ⟨substDollar [] [] s.data rep.data ++ s.data⟩
  else
    match firstOcc pat.data s.data with
    | none => s
    | some (before, after) =>
      ⟨before ++ substDollar pat.data before after rep.data ++ after⟩

/-- The abstract filesystem probe: `resolve.sync(request, { basedir:
path.resolve(rootDir), extensions })` from the source, with the external
`resolve.sync` and `path.resolve` folded into one black box taking the
request string, the configured root directory, and the extension list;
`none` models the not-found exception. -/
def Fs : Type :=
  String → String → List String → Option String

/-- The plugin options object.  JS `pluginOpts.root || []` and
`pluginOpts.alias || {}` treat a missing field as empty, modelled with
`Option`; a JS object with unique keys is modelled as an association
list. -/
structure PluginOpts where
  root : Option (List String)
  «alias» : Option (List (String × String))
  extensions : Option (List String)

/-- `defaultBabelExtensions` from the source. -/
def defaultBabelExtensions : List String :=
  [".js", ".jsx", ".es", ".es6"]

/-- `pluginOpts.extensions || defaultBabelExtensions` from the source. -/
def probeExtensions (pluginOpts : PluginOpts) : List String :=
  pluginOpts.extensions.getD defaultBabelExtensions

/-- `createAliasFileMap` from the source: the reduce over `Object.keys`
is an identity copy of the alias map, so this is `pluginOpts.alias || {}`. -/
def createAliasFileMap (pluginOpts : PluginOpts) : List (String × String) :=
  pluginOpts.«alias».getD []

/-- The body of the `while (moduleSplit.length)` loop of `mapModule`,
with an explicit fuel bounding the number of iterations (each iteration
pops the last segment, so the list length is enough fuel): look up the
`/`-joined segments in the alias map (`hasOwnProperty`), popping the last
segment until a match or exhaustion. -/
def findAliasFuel (aliasMapping : List (String × String)) :
    Nat → List String → Option (List String × String)
  | 0, _ => none
  | fuel + 1, segs =>
    if segs.isEmpty then none
    else
      match aliasMapping.lookup (joinSlash segs) with
      | some v => some (segs, v)
      | none => findAliasFuel aliasMapping fuel segs.dropLast

/-- The `while (moduleSplit.length)` loop of `mapModule`: returns the
surviving segment list and the matched target, if any. -/
def findAlias (aliasMapping : List (String × String)) (segs : List String) :
    Option (List String × String) :=
  findAliasFuel aliasMapping segs.length segs

/-- The body of the root loop on probe success: keep the source's
extension only when the resolved file's extension is textually identical,
then map relative, apply the extension policy, posixify and localize. -/
def rootRewrite (source file resolvedSourceFile : String) : String :=
  let realSourceFileExtension := extname resolvedSourceFile
  let sourceFileExtension := extname source
  let ext := if realSourceFileExtension = sourceFileExtension then
    realSourceFileExtension else ""
  toLocalPath (toPosixPath (replaceExt (mapToRelative file resolvedSourceFile) ext))

/-- The `for` loop over `pluginOpts.root` in `mapModule`: probe each root
in order with `./${source}`; the `try`/`catch` absorbs a probe failure and
moves to the next root, a success returns its resolved file at once.  (The
rewrite computed from the resolved file is total, so hoisting it out of
the `try` into `mapModule` preserves behavior.) -/
def searchRoots (fs : Fs) (source : String) (extensions : List String) :
    List String → Option String
  | [] => none
  | rootDir :: rest =>
    match fs ("./" ++ source) rootDir extensions with
    | some resolvedSourceFile => some resolvedSourceFile
    | none => searchRoots fs source extensions rest

/-- The tail of `mapModule` once the alias lookup has been answered: the
JS-falsy `!aliasPath` guard (an empty target is indistinguishable from no
match), the legacy `npm:` strip, the first-occurrence prefix substitution
`source.replace(moduleSplit.join('/'), aliasPath)`, and the
bare-vs-relative branch on the target's first character. -/
def aliasResolve (source file : String) (moduleSplit : List String)
    (aliasPath : String) : Option String :=
  if aliasPath = "" then none
  else
    let aliasPath := stripNpm aliasPath
    let newPath := replaceFirst source (joinSlash moduleSplit) aliasPath
    if ¬ strHead aliasPath = some '.' then some newPath
    else some (toLocalPath (toPosixPath (mapToRelative file newPath)))

/-- `mapModule(source, file, pluginOpts)` from the source: dot-specifier
passthrough, then the root-directory search, then the longest-prefix alias
lookup followed by `aliasResolve`. -/
def mapModule (fs : Fs) (source file : String) (pluginOpts : PluginOpts) :
    Option String :=
  if strHead source = some '.' then none
  else
    match searchRoots fs source (probeExtensions pluginOpts) (pluginOpts.root.getD []) with
    | some resolvedSourceFile => some (rootRewrite source file resolvedSourceFile)
    | none =>
      match findAlias (createAliasFileMap pluginOpts) (splitSlash source) with
      | none => none
      | some (moduleSplit, aliasPath) =>
        aliasResolve source file moduleSplit aliasPath

/-- A Babel AST node, as far as the plugin inspects one: a string literal
carrying its value, or any other node. -/
inductive Node where
  | stringLiteral (value : String)
  | other
deriving DecidableEq

/-- An object property of a proxyquire stub map: a key node and an
attached value, which the plugin never inspects. -/
structure Property (V : Type) where
  key : Node
  value : V
deriving DecidableEq

/-- `transformModulePath(module, state, filename)` from the source:
rewrite a string-literal node through `mapModule` against
`filename || state.file.opts.filename` (JS `||`: an absent or empty
`filename` falls back to the state's filename); `none` when the node is
not a string literal or `mapModule` declines.  The JS `if (modulePath)`
guard is a truthiness test, so an empty-string rewrite is also treated as
no rewrite. -/
def transformModulePath (fs : Fs) (module : Node) (stateFilename : String)
    (filename : Option String) (pluginOpts : PluginOpts) : Option Node :=
  match module with
  | .stringLiteral value =>
    let base := match filename with
      | some f => if f = "" then stateFilename else f
      | none => stateFilename
    match mapModule fs value base pluginOpts with
    | some modulePath =>
      if modulePath = "" then none else some (Node.stringLiteral modulePath)
    | none => none
  | .other => none

/-- `transformObjectExpression(modulePath, object, state)` from the
source: re-resolve every property key through `transformModulePath` with
the rewritten parent specifier `modulePath` as the resolution base,
keeping each property's value; a property whose key does not rewrite is
returned unchanged. -/
def transformObjectExpression {V : Type} (fs : Fs) (modulePath : String)
    (properties : List (Property V)) (stateFilename : String)
    (pluginOpts : PluginOpts) : List (Property V) :=
  properties.map (fun property =>
    match transformModulePath fs property.key stateFilename (some modulePath) pluginOpts with
    | some propPath => ⟨propPath, property.value⟩
    | none => property)

/-! ### Basic string and splitting lemmas -/

theorem str_ext {a b : String} (h : a.data = b.data) : a = b := by
  cases a; cases b; exact congrArg String.mk h

theorem str_append_data (a b : String) : (a ++ b).data = a.data ++ b.data := rfl

theorem str_append_empty (s : String) : s ++ "" = s :=
  str_ext (by simp [str_append_data])

theorem str_empty_append (s : String) : "" ++ s = s := rfl

theorem str_append_assoc (a b c : String) : a ++ b ++ c = a ++ (b ++ c) :=
  str_ext (by simp [str_append_data])

theorem str_append_eq_empty {a b : String} (h : a ++ b = "") : a = "" ∧ b = "" := by
  have hd : a.data ++ b.data = ([] : List Char) := congrArg String.data h
  rcases List.append_eq_nil.mp hd with ⟨h1, h2⟩
  exact ⟨str_ext (by simp [h1]), str_ext (by simp [h2])⟩

theorem splitSep_ne_nil (sep : Char) (cs : List Char) : splitSep sep cs ≠ [] := by
  induction cs with
  | nil => simp [splitSep]
  | cons c rest ih =>
    simp only [splitSep]
    split
    · simp
    · cases h : splitSep sep rest with
      | nil => simp
      | cons g gs => simp

theorem joinSep_splitSep (sep : Char) (cs : List Char) :
    joinSep sep (splitSep sep cs) = cs := by
  induction cs with
  | nil => simp [splitSep, joinSep]
  | cons c rest ih =>
    simp only [splitSep]
    split
    · rename_i hc
      cases h : splitSep sep rest with
      | nil => exact absurd h (splitSep_ne_nil sep rest)
      | cons g gs =>
        rw [h] at ih
        simp [joinSep, ← ih, hc]
    · cases h : splitSep sep rest with
      | nil => exact absurd h (splitSep_ne_nil sep rest)
      | cons g gs =>
        rw [h] at ih
        cases gs with
        | nil => simp [joinSep, ← ih]
        | cons g2 gs2 => simp [joinSep, ← ih]

theorem joinSlash_map_mk (gs : List (List Char)) (hne : gs ≠ []) :
    joinSlash (gs.map (fun g => (⟨g⟩ : String))) = ⟨joinSep '/' gs⟩ := by
  induction gs with
  | nil => simp at hne
  | cons g rest ih =>
    cases rest with
    | nil => simp [joinSlash, joinSep]
    | cons g2 rest2 =>
      simp only [List.map_cons] at ih ⊢
      rw [joinSlash, ih (by simp)]
      refine str_ext ?_
      simp [str_append_data, joinSep]

theorem joinSlash_splitSlash (s : String) : joinSlash (splitSlash s) = s := by
  rw [splitSlash, joinSlash_map_mk _ (splitSep_ne_nil '/' s.data)]
  exact str_ext (by simpa using joinSep_splitSep '/' s.data)

theorem joinSlash_cons_ne_nil (x : String) (l : List String) (h : l ≠ []) :
    joinSlash (x :: l) = x ++ "/" ++ joinSlash l := by
  cases l with
  | nil => simp at h
  | cons y ys => rfl

/-- Taking a prefix of the segment list yields a string prefix of the join. -/
theorem joinSlash_take_suffix (segs : List String) (k : Nat) :
    ∃ suffix, joinSlash segs = joinSlash (segs.take k) ++ suffix := by
  induction segs generalizing k with
  | nil => exact ⟨"", by simp [joinSlash, str_append_empty]⟩
  | cons x rest ih =>
    cases k with
    | zero => exact ⟨joinSlash (x :: rest), by simp [joinSlash, str_empty_append]⟩
    | succ k =>
      cases rest with
      | nil =>
        exact ⟨"", by simp [joinSlash, str_append_empty]⟩
      | cons y ys =>
        rcases ih (k := k) with ⟨suffix, hs⟩
        cases hk : (y :: ys).take k with
        | nil =>
          have hk0 : k = 0 := by
            cases k with
            | zero => rfl
            | succ k2 => simp at hk
          subst hk0
          simp only [List.take_succ_cons, hk]
          exact ⟨"/" ++ joinSlash (y :: ys), by
            rw [joinSlash_cons_ne_nil x (y :: ys) (by simp), joinSlash, str_append_assoc]⟩
        | cons z zs =>
          refine ⟨suffix, ?_⟩
          rw [joinSlash_cons_ne_nil x (y :: ys) (by simp), hs, List.take_succ_cons,
            joinSlash_cons_ne_nil x ((y :: ys).take k) (by rw [hk]; simp), hk]
          rw [← hk, str_append_assoc, str_append_assoc, str_append_assoc]

/-! ### Substitution and marker lemmas -/

theorem str_data_ne_nil {s : String} (h : ¬ s = "") : s.data ≠ [] := by
  intro hd
  exact h (str_ext (by simpa using hd))

/-- A replacement without dollars is not touched by `GetSubstitution`. -/
theorem substDollar_no_dollar (m b a : List Char) :
    ∀ rep, (∀ c ∈ rep, ¬ c = '$') → substDollar m b a rep = rep := by
  intro rep
  induction rep with
  | nil => intro _; rfl
  | cons c1 rest ih =>
    intro h
    cases rest with
    | nil => rfl
    | cons c2 rest2 =>
      rw [substDollar, if_neg (h c1 (by simp))]
      rw [ih (fun c hc => h c (by simp [hc]))]

/-- The first occurrence of a non-empty pattern sitting at the front of
the subject is at position 0, with the rest of the subject after it. -/
theorem firstOcc_append (pat rest : List Char) (h : pat ≠ []) :
    firstOcc pat (pat ++ rest) = some ([], rest) := by
  cases pat with
  | nil => simp at h
  | cons c cs =>
    show firstOcc (c :: cs) (c :: (cs ++ rest)) = some ([], rest)
    rw [firstOcc, if_pos]
    · have hcc : c :: (cs ++ rest) = (c :: cs) ++ rest := rfl
      rw [hcc, List.drop_left]
    · have hcc : c :: (cs ++ rest) = (c :: cs) ++ rest := rfl
      rw [hcc]
      exact List.isPrefixOf_iff_prefix.mpr (List.prefix_append _ _)

/-- Replacing the first occurrence of a pattern that sits at the front of
the subject by a dollar-free replacement substitutes it and keeps the
suffix attached. -/
theorem replaceFirst_append (pat suffix rep : String)
    (hrep : ∀ c ∈ rep.data, ¬ c = '$') :
    replaceFirst (pat ++ suffix) pat rep = rep ++ suffix := by
  by_cases hp : pat = ""
  · subst hp
    rw [replaceFirst, if_pos rfl]
    refine str_ext ?_
    show substDollar [] [] ("" ++ suffix).data rep.data ++ ("" ++ suffix).data =
      (rep ++ suffix).data
    rw [substDollar_no_dollar _ _ _ _ hrep]
    rfl
  · rw [replaceFirst, if_neg hp]
    have hd : (pat ++ suffix).data = pat.data ++ suffix.data := rfl
    rw [hd, firstOcc_append _ _ (str_data_ne_nil hp)]
    refine str_ext ?_
    show [] ++ substDollar pat.data [] suffix.data rep.data ++ suffix.data =
      (rep ++ suffix).data
    rw [substDollar_no_dollar _ _ _ _ hrep]
    rfl

/-- The legacy `npm:` marker is removed from marked alias targets. -/
theorem stripNpm_marker (w : String) : stripNpm ("npm:" ++ w) = w := by
  rw [stripNpm, if_pos]
  · refine str_ext ?_
    show (("npm:" ++ w).data).drop 4 = w.data
    rw [str_append_data]
    exact List.drop_left' rfl
  · rw [str_append_data]
    exact List.isPrefixOf_iff_prefix.mpr (List.prefix_append _ _)

/-- An unmarked alias target is left as it is by the marker strip. -/
theorem stripNpm_unmarked (v : String) (h : ¬ "npm:".data.isPrefixOf v.data) :
    stripNpm v = v := by
  rw [stripNpm, if_neg h]

/-! ### Root-phase lemmas -/

theorem searchRoots_nil (fs : Fs) (source : String) (exts : List String) :
    searchRoots fs source exts [] = none := rfl

theorem searchRoots_cons_some {fs : Fs} {source : String} {exts : List String}
    {r f : String} (rs : List String) (hhit : fs ("./" ++ source) r exts = some f) :
    searchRoots fs source exts (r :: rs) = some f := by
  simp [searchRoots, hhit]

theorem searchRoots_cons_none {fs : Fs} {source : String} {exts : List String}
    {r : String} (rs : List String) (hmiss : fs ("./" ++ source) r exts = none) :
    searchRoots fs source exts (r :: rs) = searchRoots fs source exts rs := by
  simp [searchRoots, hmiss]

theorem searchRoots_append_none {fs : Fs} {source : String} {exts : List String}
    (rs1 rs : List String)
    (h : ∀ r ∈ rs1, fs ("./" ++ source) r exts = none) :
    searchRoots fs source exts (rs1 ++ rs) = searchRoots fs source exts rs := by
  induction rs1 with
  | nil => rfl
  | cons r rs1 ih =>
    rw [List.cons_append, searchRoots_cons_none _ (h r (by simp))]
    exact ih (fun r' hr' => h r' (by simp [hr']))

theorem searchRoots_eq_none {fs : Fs} {source : String} {exts : List String}
    {roots : List String}
    (h : ∀ r ∈ roots, fs ("./" ++ source) r exts = none) :
    searchRoots fs source exts roots = none := by
  have := searchRoots_append_none roots [] h
  simpa using this

/-! ### Alias-lookup lemmas -/

theorem findAlias_eq (t : List (String × String)) (segs : List String)
    (h : segs ≠ []) :
    findAlias t segs =
      match t.lookup (joinSlash segs) with
      | some v => some (segs, v)
      | none => findAlias t segs.dropLast := by
  cases segs with
  | nil => simp at h
  | cons m ms =>
    show findAliasFuel t (ms.length + 1) (m :: ms) = _
    rw [findAliasFuel]
    have hl : (m :: ms).dropLast.length = ms.length := by simp
    simp only [List.isEmpty_cons, Bool.false_eq_true, if_false, findAlias, hl]

/-- Soundness of the popping loop: a hit is a non-empty segment-list
prefix of the specifier found in the table, and every strictly longer
prefix misses — the longest alias prefix wins. -/
theorem findAlias_sound (t : List (String × String)) :
    ∀ segs pre v, findAlias t segs = some (pre, v) →
      pre ≠ [] ∧ segs.take pre.length = pre ∧
      t.lookup (joinSlash pre) = some v ∧
      ∀ k, pre.length < k → k ≤ segs.length →
        t.lookup (joinSlash (segs.take k)) = none := by
  intro segs
  induction segs using List.reverseRecOn with
  | nil => intro pre v h; simp [findAlias, findAliasFuel] at h
  | append_singleton l a ih =>
    intro pre v h
    rw [findAlias_eq t _ (by simp)] at h
    cases hl : t.lookup (joinSlash (l ++ [a])) with
    | some v0 =>
      rw [hl] at h
      simp only [Option.some.injEq, Prod.mk.injEq] at h
      obtain ⟨hpre, hv⟩ := h
      subst hpre; subst hv
      refine ⟨by simp, by simp, hl, ?_⟩
      intro k hk1 hk2
      simp at hk1 hk2
      omega
    | none =>
      rw [hl] at h
      simp only [List.dropLast_concat] at h
      obtain ⟨h1, h2, h3, h4⟩ := ih pre v h
      have hle : pre.length ≤ l.length := by
        have := congrArg List.length h2
        simp only [List.length_take] at this
        omega
      refine ⟨h1, ?_, h3, ?_⟩
      · rw [List.take_append_of_le_length hle]
        exact h2
      · intro k hk1 hk2
        simp only [List.length_append, List.length_singleton] at hk2
        rcases Nat.lt_or_ge k (l.length + 1) with hk | hk
        · rw [List.take_append_of_le_length (by omega)]
          exact h4 k hk1 (by omega)
        · have hkeq : k = l.length + 1 := by omega
          subst hkeq
          rw [List.take_of_length_le (by simp)]
          exact hl

/-- Completeness of the popping loop: when every non-empty prefix of the
specifier misses the table, the loop terminates empty-handed. -/
theorem findAlias_eq_none (t : List (String × String)) :
    ∀ segs,
      (∀ k, 0 < k → k ≤ segs.length →
        t.lookup (joinSlash (segs.take k)) = none) →
      findAlias t segs = none := by
  intro segs
  induction segs using List.reverseRecOn with
  | nil => intro _; simp [findAlias, findAliasFuel]
  | append_singleton l a ih =>
    intro h
    rw [findAlias_eq t _ (by simp)]
    have hfull : t.lookup (joinSlash (l ++ [a])) = none := by
      have := h (l.length + 1) (by omega) (by simp)
      rwa [List.take_of_length_le (by simp)] at this
    rw [hfull]
    simp only [List.dropLast_concat]
    exact ih (fun k hk1 hk2 => by
      have := h k hk1 (by simp; omega)
      rwa [List.take_append_of_le_length hk2] at this)

/-! ### Phase-selection lemmas for `mapModule` -/

theorem mapModule_dot {fs : Fs} {source : String} (file : String)
    (pluginOpts : PluginOpts) (h : strHead source = some '.') :
    mapModule fs source file pluginOpts = none := by
  rw [mapModule, if_pos h]

theorem mapModule_eq_root {fs : Fs} {source : String} (file : String)
    {pluginOpts : PluginOpts} {f : String}
    (hdot : ¬ strHead source = some '.')
    (hroot : searchRoots fs source (probeExtensions pluginOpts)
      (pluginOpts.root.getD []) = some f) :
    mapModule fs source file pluginOpts = some (rootRewrite source file f) := by
  rw [mapModule, if_neg hdot, hroot]

theorem mapModule_eq_aliasPhase {fs : Fs} {source file : String}
    {pluginOpts : PluginOpts}
    (hdot : ¬ strHead source = some '.')
    (hroot : searchRoots fs source (probeExtensions pluginOpts)
      (pluginOpts.root.getD []) = none) :
    mapModule fs source file pluginOpts =
      match findAlias (createAliasFileMap pluginOpts) (splitSlash source) with
      | none => none
      | some (moduleSplit, aliasPath) =>
        aliasResolve source file moduleSplit aliasPath := by
  rw [mapModule, if_neg hdot, hroot]

theorem mapModule_alias_found {fs : Fs} {source file : String}
    {pluginOpts : PluginOpts} {pre : List String} {v : String}
    (hdot : ¬ strHead source = some '.')
    (hroot : searchRoots fs source (probeExtensions pluginOpts)
      (pluginOpts.root.getD []) = none)
    (hfind : findAlias (createAliasFileMap pluginOpts) (splitSlash source) =
      some (pre, v)) :
    mapModule fs source file pluginOpts = aliasResolve source file pre v := by
  rw [mapModule_eq_aliasPhase hdot hroot, hfind]

theorem mapModule_alias_none {fs : Fs} {source file : String}
    {pluginOpts : PluginOpts}
    (hdot : ¬ strHead source = some '.')
    (hroot : searchRoots fs source (probeExtensions pluginOpts)
      (pluginOpts.root.getD []) = none)
    (hfind : findAlias (createAliasFileMap pluginOpts) (splitSlash source) = none) :
    mapModule fs source file pluginOpts = none := by
  rw [mapModule_eq_aliasPhase hdot hroot, hfind]

theorem strDrop_of_append {m suffix s : String} (h : s = m ++ suffix) :
    strDrop s m.data.length = suffix := by
  subst h
  refine str_ext ?_
  show ((m ++ suffix).data).drop m.data.length = suffix.data
  rw [str_append_data]
  exact List.drop_left _ _

/-- A segment-list prefix of the split specifier, joined back, is a string
prefix of the specifier, and the leftover is the character drop. -/
theorem take_decomp {source : String} {pre : List String}
    (h2 : (splitSlash source).take pre.length = pre) :
    source = joinSlash pre ++ strDrop source (joinSlash pre).data.length := by
  obtain ⟨suffix, hs0⟩ := joinSlash_take_suffix (splitSlash source) pre.length
  rw [joinSlash_splitSlash, h2] at hs0
  rw [strDrop_of_append hs0]
  exact hs0

/-! ### Claim theorems -/

/-- C4: Relative-specifier passthrough — for every specifier whose first
character is `.`, and for every filesystem, file path and configuration,
`mapModule` returns `none` (NoRewrite), so neither the roots nor the alias
table is consulted. -/
theorem relative_passthrough (fs : Fs) (source file : String)
    (pluginOpts : PluginOpts) (h : strHead source = some '.') :
    mapModule fs source file pluginOpts = none :=
  mapModule_dot file pluginOpts h

theorem relative_passthrough_witness :
    strHead "./l/otherLib" = some '.' ∧
    mapModule (fun _ _ _ => some "r1/hit.js") "./l/otherLib" "unknown"
      ⟨some ["r1"], some [("./l/otherLib", "x")], none⟩ = none :=
  ⟨by decide,
   relative_passthrough (fun _ _ _ => some "r1/hit.js") "./l/otherLib" "unknown"
     ⟨some ["r1"], some [("./l/otherLib", "x")], none⟩ (by decide)⟩

/-- C1: Root precedence — when the probe fails on every root before `r`
and succeeds on `r`, `mapModule` returns the rewrite computed from `r`'s
resolved file, and the result is unchanged under any modification of the
probe at the roots after `r` (later roots are never consulted). -/
theorem root_precedence (fs : Fs) (source file : String)
    (pluginOpts : PluginOpts) (rs1 rs2 : List String) (r f : String)
    (hdot : ¬ strHead source = some '.')
    (hsplit : pluginOpts.root.getD [] = rs1 ++ r :: rs2)
    (hfail : ∀ r' ∈ rs1, fs ("./" ++ source) r' (probeExtensions pluginOpts) = none)
    (hhit : fs ("./" ++ source) r (probeExtensions pluginOpts) = some f) :
    mapModule fs source file pluginOpts = some (rootRewrite source file f) ∧
    ∀ fs' : Fs,
      (∀ r' ∈ rs1 ++ [r], ∀ a e, fs' a r' e = fs a r' e) →
      mapModule fs' source file pluginOpts = some (rootRewrite source file f) := by
  constructor
  · refine mapModule_eq_root _ hdot ?_
    rw [hsplit, searchRoots_append_none rs1 _ hfail]
    exact searchRoots_cons_some rs2 hhit
  · intro fs' hagree
    refine mapModule_eq_root _ hdot ?_
    rw [hsplit, searchRoots_append_none rs1 _ (fun r' hr' => by
      rw [hagree r' (by simp [hr'])]
      exact hfail r' hr')]
    exact searchRoots_cons_some rs2 (by rw [hagree r (by simp)]; exact hhit)

theorem root_precedence_witness :
    (¬ strHead "c1" = some '.') ∧
    mapModule
      (fun req base _ => if base = "r1" ∧ req = "./c1" then some "r1/c1.js"
        else if base = "r2" ∧ req = "./c1" then some "r2/c1.js" else none)
      "c1" "unknown" ⟨some ["r1", "r2"], none, none⟩ = some "./r1/c1" := by
  have h := root_precedence
    (fun req base _ => if base = "r1" ∧ req = "./c1" then some "r1/c1.js"
      else if base = "r2" ∧ req = "./c1" then some "r2/c1.js" else none)
    "c1" "unknown" ⟨some ["r1", "r2"], none, none⟩ [] ["r2"] "r1" "r1/c1.js"
    (by decide) (by decide) (by decide) (by decide)
  exact ⟨by decide, by rw [h.1]; decide⟩

/-- C5: Root match suppresses alias rules — when the probe succeeds for
some root (all earlier roots failing), the result of `mapModule` is the
root-phase rewrite whatever the contents of the alias table. -/
theorem root_suppresses_alias (fs : Fs) (source file : String)
    (root : Option (List String)) (exts : Option (List String))
    (rs1 rs2 : List String) (r f : String)
    (hdot : ¬ strHead source = some '.')
    (hsplit : root.getD [] = rs1 ++ r :: rs2)
    (hfail : ∀ r' ∈ rs1,
      fs ("./" ++ source) r' (exts.getD defaultBabelExtensions) = none)
    (hhit : fs ("./" ++ source) r (exts.getD defaultBabelExtensions) = some f) :
    ∀ a : Option (List (String × String)),
      mapModule fs source file ⟨root, a, exts⟩ = some (rootRewrite source file f) := by
  intro a
  refine mapModule_eq_root _ hdot ?_
  show searchRoots fs source (exts.getD defaultBabelExtensions) (root.getD []) = some f
  rw [hsplit, searchRoots_append_none rs1 _ hfail]
  exact searchRoots_cons_some rs2 hhit

theorem root_suppresses_alias_witness :
    mapModule (fun req base _ => if base = "r1" ∧ req = "./c1" then some "r1/c1.js" else none)
      "c1" "unknown" ⟨some ["r1"], some [("c1", "./totally/elsewhere")], none⟩ =
      some "./r1/c1" ∧
    mapModule (fun req base _ => if base = "r1" ∧ req = "./c1" then some "r1/c1.js" else none)
      "c1" "unknown" ⟨some ["r1"], none, none⟩ = some "./r1/c1" := by
  have h := root_suppresses_alias
    (fun req base _ => if base = "r1" ∧ req = "./c1" then some "r1/c1.js" else none)
    "c1" "unknown" (some ["r1"]) none [] [] "r1" "r1/c1.js"
    (by decide) (by decide) (by decide) (by decide)
  exact ⟨by rw [h (some [("c1", "./totally/elsewhere")])]; decide,
    by rw [h none]; decide⟩

/-- C10: Empty alias target behaves as no match — when no root resolves a
non-relative specifier and the longest-prefix lookup selects a key mapped
to the empty string, `mapModule` returns `none` (the JS `!aliasPath` guard
cannot tell the empty target from a failed lookup). -/
theorem empty_alias_target (fs : Fs) (source file : String)
    (pluginOpts : PluginOpts) (pre : List String)
    (hdot : ¬ strHead source = some '.')
    (hroots : ∀ r ∈ pluginOpts.root.getD [],
      fs ("./" ++ source) r (probeExtensions pluginOpts) = none)
    (hfind : findAlias (createAliasFileMap pluginOpts) (splitSlash source) =
      some (pre, "")) :
    mapModule fs source file pluginOpts = none := by
  rw [mapModule_alias_found hdot (searchRoots_eq_none hroots) hfind]
  rw [aliasResolve, if_pos rfl]

theorem empty_alias_target_witness :
    findAlias [("emp", "")] (splitSlash "emp/x") = some (["emp"], "") ∧
    mapModule (fun _ _ _ => none) "emp/x" "unknown"
      ⟨none, some [("emp", "")], none⟩ = none :=
  ⟨by decide,
   empty_alias_target (fun _ _ _ => none) "emp/x" "unknown"
     ⟨none, some [("emp", "")], none⟩ ["emp"] (by decide) (by decide) (by decide)⟩

/-- C7: Unmatched specifier passthrough and non-fatality of probe failure
— a probe failure on one root just moves the search to the next root, and
when every root fails and no non-empty prefix of the specifier is in the
alias table, `mapModule` returns `none` (and, being total, never raises). -/
theorem unmatched_passthrough (fs : Fs) (source file : String)
    (pluginOpts : PluginOpts)
    (hdot : ¬ strHead source = some '.')
    (hroots : ∀ r ∈ pluginOpts.root.getD [],
      fs ("./" ++ source) r (probeExtensions pluginOpts) = none)
    (halias : ∀ k ∈ List.range ((splitSlash source).length + 1), 0 < k →
      (createAliasFileMap pluginOpts).lookup
        (joinSlash ((splitSlash source).take k)) = none) :
    (∀ (r : String) (rs : List String),
      fs ("./" ++ source) r (probeExtensions pluginOpts) = none →
      searchRoots fs source (probeExtensions pluginOpts) (r :: rs) =
        searchRoots fs source (probeExtensions pluginOpts) rs) ∧
    mapModule fs source file pluginOpts = none := by
  refine ⟨fun r rs h => searchRoots_cons_none rs h, ?_⟩
  exact mapModule_alias_none hdot (searchRoots_eq_none hroots)
    (findAlias_eq_none _ _ (fun k hk1 hk2 =>
      halias k (List.mem_range.mpr (by omega)) hk1))

theorem unmatched_passthrough_witness :
    mapModule (fun _ _ _ => none) "other-lib" "unknown"
      ⟨some ["r1", "r2"],
       some [("utils", "./src/mylib/subfolder/utils"), ("abstract", "npm:concrete")],
       none⟩ = none :=
  (unmatched_passthrough (fun _ _ _ => none) "other-lib" "unknown"
    ⟨some ["r1", "r2"],
     some [("utils", "./src/mylib/subfolder/utils"), ("abstract", "npm:concrete")],
     none⟩ (by decide) (by decide) (by decide)).2

/-- C2 (amended): Longest-prefix alias lookup — with no root resolving, a
hit of the popping loop is the longest non-empty segment-prefix of the
specifier present in the table, and — provided the marker-stripped target
contains no `$` (which JS `String.prototype.replace` would expand as a
substitution pattern instead of inserting it) — the rewrite replaces that
matched prefix by the target with the unmatched suffix kept attached. -/
theorem longest_alias_match (fs : Fs) (source file : String)
    (pluginOpts : PluginOpts) (pre : List String) (v : String)
    (hdot : ¬ strHead source = some '.')
    (hroots : ∀ r ∈ pluginOpts.root.getD [],
      fs ("./" ++ source) r (probeExtensions pluginOpts) = none)
    (hfind : findAlias (createAliasFileMap pluginOpts) (splitSlash source) =
      some (pre, v))
    (hv : ¬ v = "")
    (hdollar : ∀ c ∈ (stripNpm v).data, ¬ c = '$') :
    (pre ≠ [] ∧ (splitSlash source).take pre.length = pre ∧
     (createAliasFileMap pluginOpts).lookup (joinSlash pre) = some v ∧
     ∀ k, pre.length < k → k ≤ (splitSlash source).length →
       (createAliasFileMap pluginOpts).lookup
         (joinSlash ((splitSlash source).take k)) = none) ∧
    source = joinSlash pre ++ strDrop source (joinSlash pre).data.length ∧
    mapModule fs source file pluginOpts =
      some (if ¬ strHead (stripNpm v) = some '.' then
              stripNpm v ++ strDrop source (joinSlash pre).data.length
            else toLocalPath (toPosixPath (mapToRelative file
              (stripNpm v ++ strDrop source (joinSlash pre).data.length)))) := by
  obtain ⟨h1, h2, h3, h4⟩ := findAlias_sound _ _ pre v hfind
  have hs := take_decomp h2
  refine ⟨⟨h1, h2, h3, h4⟩, hs, ?_⟩
  rw [mapModule_alias_found hdot (searchRoots_eq_none hroots) hfind]
  rw [aliasResolve, if_neg hv]
  have hrepl : replaceFirst source (joinSlash pre) (stripNpm v) =
      stripNpm v ++ strDrop source (joinSlash pre).data.length := by
    conv_lhs => rw [hs]
    exact replaceFirst_append _ _ _ hdollar
  simp only [hrepl]
  split
  · rfl
  · rfl

theorem longest_alias_match_witness :
    mapModule (fun _ _ _ => none) "awesome/components/my-comp" "unknown"
      ⟨none, some [("awesome", "./top"), ("awesome/components", "./src/components")],
       none⟩ = some "./src/components/my-comp" ∧
    mapModule (fun _ _ _ => none) "awesome/components" "unknown"
      ⟨none, some [("awesome", "./top"), ("awesome/components", "./src/components")],
       none⟩ = some "./src/components" := by
  have hA := longest_alias_match (fun _ _ _ => none) "awesome/components/my-comp"
    "unknown"
    ⟨none, some [("awesome", "./top"), ("awesome/components", "./src/components")], none⟩
    ["awesome", "components"] "./src/components"
    (by decide) (by decide) (by decide) (by decide) (by decide)
  have hB := longest_alias_match (fun _ _ _ => none) "awesome/components"
    "unknown"
    ⟨none, some [("awesome", "./top"), ("awesome/components", "./src/components")], none⟩
    ["awesome", "components"] "./src/components"
    (by decide) (by decide) (by decide) (by decide) (by decide)
  exact ⟨by rw [hA.2.2]; decide, by rw [hB.2.2]; decide⟩

/-- C2 counterexample: the claim's verbatim substitution fails for an
alias target containing a `$` pattern — with alias `{"a": "$$"}` the
program maps `"a/x"` to `"$/x"` (JS `$$` collapses to one dollar), not to
the target-plus-suffix `"$$/x"`. -/
theorem longest_alias_match_cex :
    mapModule (fun _ _ _ => none) "a/x" "unknown"
      ⟨none, some [("a", "$$")], none⟩ = some "$/x" ∧
    ¬ mapModule (fun _ _ _ => none) "a/x" "unknown"
      ⟨none, some [("a", "$$")], none⟩ = some ("$$" ++ "/x") := by
  exact ⟨by decide, by decide⟩

/-- C6 (amended): Legacy package marker stripping and bare-package
substitution — the `npm:` marker is removed from alias targets, and a
marker-stripped target not starting with `.` is returned with the
unmatched suffix attached and no relative-path computation; the insertion
is verbatim provided the stripped target contains no `$` (which JS
`String.prototype.replace` would expand as a substitution pattern). -/
theorem npm_alias (fs : Fs) (source file : String)
    (pluginOpts : PluginOpts) (pre : List String) (v : String)
    (hdot : ¬ strHead source = some '.')
    (hroots : ∀ r ∈ pluginOpts.root.getD [],
      fs ("./" ++ source) r (probeExtensions pluginOpts) = none)
    (hfind : findAlias (createAliasFileMap pluginOpts) (splitSlash source) =
      some (pre, v))
    (hv : ¬ v = "")
    (hbare : ¬ strHead (stripNpm v) = some '.')
    (hdollar : ∀ c ∈ (stripNpm v).data, ¬ c = '$') :
    (∀ w : String, stripNpm ("npm:" ++ w) = w) ∧
    source = joinSlash pre ++ strDrop source (joinSlash pre).data.length ∧
    mapModule fs source file pluginOpts =
      some (stripNpm v ++ strDrop source (joinSlash pre).data.length) := by
  obtain ⟨h1, h2, h3, h4⟩ := findAlias_sound _ _ pre v hfind
  have hs := take_decomp h2
  refine ⟨stripNpm_marker, hs, ?_⟩
  rw [mapModule_alias_found hdot (searchRoots_eq_none hroots) hfind]
  rw [aliasResolve, if_neg hv]
  have hrepl : replaceFirst source (joinSlash pre) (stripNpm v) =
      stripNpm v ++ strDrop source (joinSlash pre).data.length := by
    conv_lhs => rw [hs]
    exact replaceFirst_append _ _ _ hdollar
  simp only [hrepl]
  rw [if_pos hbare]

theorem npm_alias_witness :
    mapModule (fun _ _ _ => none) "abstract/thing" "unknown"
      ⟨none, some [("abstract", "npm:concrete")], none⟩ = some "concrete/thing" ∧
    mapModule (fun _ _ _ => none) "underscore/map" "unknown"
      ⟨none, some [("underscore", "lodash")], none⟩ = some "lodash/map" := by
  have hA := npm_alias (fun _ _ _ => none) "abstract/thing" "unknown"
    ⟨none, some [("abstract", "npm:concrete")], none⟩ ["abstract"] "npm:concrete"
    (by decide) (by decide) (by decide) (by decide) (by decide) (by decide)
  have hB := npm_alias (fun _ _ _ => none) "underscore/map" "unknown"
    ⟨none, some [("underscore", "lodash")], none⟩ ["underscore"] "lodash"
    (by decide) (by decide) (by decide) (by decide) (by decide) (by decide)
  exact ⟨by rw [hA.2.2]; decide, by rw [hB.2.2]; decide⟩

/-- C6 counterexample: the claim's verbatim suffix attachment fails for a
marker-stripped target containing a `$` pattern — alias
`{"abstract": "npm:a$$b"}` maps `"abstract/thing"` to `"a$b/thing"` (JS
`$$` collapses to one dollar), not to the stripped target plus suffix
`"a$$b/thing"`. -/
theorem npm_alias_cex :
    mapModule (fun _ _ _ => none) "abstract/thing" "unknown"
      ⟨none, some [("abstract", "npm:a$$b")], none⟩ = some "a$b/thing" ∧
    ¬ mapModule (fun _ _ _ => none) "abstract/thing" "unknown"
      ⟨none, some [("abstract", "npm:a$$b")], none⟩ =
      some (stripNpm "npm:a$$b" ++ "/thing") := by
  exact ⟨by decide, by decide⟩

/-- C9: Default extension list — `defaultBabelExtensions` is exactly
`[".js", ".jsx", ".es", ".es6"]`, the probe list is this default when the
`extensions` option is omitted and the given list when present, and
`mapModule` only ever consults the probe with that list. -/
theorem default_extension_list :
    defaultBabelExtensions = [".js", ".jsx", ".es", ".es6"] ∧
    (∀ pluginOpts : PluginOpts, pluginOpts.extensions = none →
      probeExtensions pluginOpts = [".js", ".jsx", ".es", ".es6"]) ∧
    (∀ (pluginOpts : PluginOpts) (l : List String),
      pluginOpts.extensions = some l → probeExtensions pluginOpts = l) ∧
    (∀ (fs fs' : Fs) (source file : String) (pluginOpts : PluginOpts),
      (∀ a b, fs a b (probeExtensions pluginOpts) =
        fs' a b (probeExtensions pluginOpts)) →
      mapModule fs source file pluginOpts = mapModule fs' source file pluginOpts) := by
  refine ⟨rfl, fun p h => by rw [probeExtensions, h]; rfl,
    fun p l h => by rw [probeExtensions, h]; rfl, ?_⟩
  intro fs fs' source file pluginOpts hagree
  have hsr : ∀ roots, searchRoots fs source (probeExtensions pluginOpts) roots =
      searchRoots fs' source (probeExtensions pluginOpts) roots := by
    intro roots
    induction roots with
    | nil => rfl
    | cons r rs ih => rw [searchRoots, searchRoots, hagree, ih]
  rw [mapModule, mapModule, hsr]

theorem default_extension_list_witness :
    mapModule (fun req base e => if e = [".custom"]
        then (if base = "r1" ∧ req = "./c1" then some "r1/c1.custom" else none)
        else none)
      "c1" "unknown" ⟨some ["r1"], none, some [".custom"]⟩ =
    mapModule (fun req base e => if e = [".custom"]
        then (if base = "r1" ∧ req = "./c1" then some "r1/c1.custom" else none)
        else some "bogus")
      "c1" "unknown" ⟨some ["r1"], none, some [".custom"]⟩ ∧
    mapModule (fun req base e => if e = [".custom"]
        then (if base = "r1" ∧ req = "./c1" then some "r1/c1.custom" else none)
        else none)
      "c1" "unknown" ⟨some ["r1"], none, some [".custom"]⟩ = some "./r1/c1" := by
  refine ⟨default_extension_list.2.2.2 _ _ "c1" "unknown"
    ⟨some ["r1"], none, some [".custom"]⟩
    (fun a b => by simp [probeExtensions]), by decide⟩

/-- C8: Stub-table rewriting — every string-literal key of a stub map is
independently re-resolved by `mapModule` with the already-rewritten parent
specifier (not the state's filename) as the resolution base, each
property's attached value is passed through unchanged, and keys for which
resolution yields no rewrite — `none`, or the empty string rejected by the
JS `if (modulePath)` truthiness guard — are left untouched. -/
theorem stub_rewriting {V : Type} (fs : Fs) (pluginOpts : PluginOpts)
    (st st' modulePath : String) (props : List (Property V))
    (hmp : ¬ modulePath = "") :
    transformObjectExpression fs modulePath props st pluginOpts =
      props.map (fun p =>
        match p.key with
        | .stringLiteral s =>
          match mapModule fs s modulePath pluginOpts with
          | some r => if r = "" then p else ⟨.stringLiteral r, p.value⟩
          | none => p
        | .other => p) ∧
    transformObjectExpression fs modulePath props st pluginOpts =
      transformObjectExpression fs modulePath props st' pluginOpts ∧
    (transformObjectExpression fs modulePath props st pluginOpts).map
      (fun p => p.value) = props.map (fun p => p.value) := by
  have key : ∀ st0 : String,
      transformObjectExpression fs modulePath props st0 pluginOpts =
        props.map (fun p =>
          match p.key with
          | .stringLiteral s =>
            match mapModule fs s modulePath pluginOpts with
            | some r => if r = "" then p else ⟨.stringLiteral r, p.value⟩
            | none => p
          | .other => p) := by
    intro st0
    rw [transformObjectExpression]
    refine List.map_congr_left ?_
    intro p _
    cases hk : p.key with
    | other => simp [transformModulePath, hk]
    | stringLiteral s =>
      cases hm : mapModule fs s modulePath pluginOpts with
      | none => simp [transformModulePath, hk, if_neg hmp, hm]
      | some r =>
        by_cases hr : r = ""
        · simp [transformModulePath, hk, if_neg hmp, hm, hr]
        · simp [transformModulePath, hk, if_neg hmp, hm, hr]
  refine ⟨key st, by rw [key st, key st'], ?_⟩
  rw [key st, List.map_map]
  refine List.map_congr_left ?_
  intro p _
  simp only [Function.comp_apply]
  cases hk : p.key with
  | other => simp [hk]
  | stringLiteral s =>
    cases hm : mapModule fs s modulePath pluginOpts with
    | none => simp [hk, hm]
    | some r =>
      by_cases hr : r = ""
      · simp [hk, hm, hr]
      · simp [hk, hm, hr]

theorem stub_rewriting_witness :
    transformObjectExpression
      (fun req base _ => if base = "r" ∧ req = "./c2" then some "r/c2.js" else none)
      "./r/c1" [⟨.stringLiteral "c2", (0 : Nat)⟩, ⟨.other, 1⟩] "state-file"
      ⟨some ["r"], none, none⟩ =
      [⟨.stringLiteral "./c2", 0⟩, ⟨.other, 1⟩] := by
  have h := (stub_rewriting
    (fun req base _ => if base = "r" ∧ req = "./c2" then some "r/c2.js" else none)
    ⟨some ["r"], none, none⟩ "state-file" "another-state-file" "./r/c1"
    [⟨.stringLiteral "c2", (0 : Nat)⟩, ⟨.other, 1⟩] (by decide)).1
  rw [h]
  decide

/-! ### Suffix-preservation lemmas for the extension policy -/

theorem splitSep_append (sep : Char) (a b : List Char) :
    splitSep sep (a ++ sep :: b) = splitSep sep a ++ splitSep sep b := by
  induction a with
  | nil => simp [splitSep]
  | cons c a ih =>
    by_cases hc : c = sep
    · subst hc
      rw [List.cons_append, splitSep, if_pos rfl, splitSep, if_pos rfl, ih]
      rfl
    · rw [List.cons_append, splitSep, if_neg hc, splitSep, if_neg hc, ih]
      cases h : splitSep sep a with
      | nil => exact absurd h (splitSep_ne_nil sep a)
      | cons g gs => rfl

theorem splitSep_no_sep (sep : Char) (cs : List Char)
    (h : ∀ c ∈ cs, ¬ c = sep) : splitSep sep cs = [cs] := by
  induction cs with
  | nil => rfl
  | cons c cs ih =>
    rw [splitSep, if_neg (h c (by simp)), ih (fun c' hc' => h c' (by simp [hc']))]

theorem splitSlash_append_seg (d seg : String)
    (hseg : ∀ c ∈ seg.data, ¬ c = '/') :
    splitSlash (d ++ "/" ++ seg) = splitSlash d ++ [seg] := by
  rw [splitSlash, splitSlash]
  have hd : (d ++ "/" ++ seg).data = d.data ++ '/' :: seg.data := by
    rw [str_append_data, str_append_data]
    simp
  rw [hd, splitSep_append, splitSep_no_sep '/' seg.data hseg, List.map_append]
  rfl

theorem normalizeSegs_concat (absolute : Bool) (l : List String) (seg : String)
    (h1 : ¬ seg = "") (h2 : ¬ seg = ".") (h3 : ¬ seg = "..") :
    normalizeSegs absolute (l ++ [seg]) = normalizeSegs absolute l ++ [seg] := by
  rw [normalizeSegs, List.foldl_append]
  show normStep absolute (normalizeSegs absolute l) seg = _
  rw [normStep, if_neg (by simp [h1, h2]), if_neg h3]

theorem joinSlash_concat_ex (l : List String) (seg : String) :
    ∃ q, joinSlash (l ++ [seg]) = q ++ seg := by
  induction l with
  | nil => exact ⟨"", by rw [str_empty_append]; rfl⟩
  | cons x l ih =>
    cases l with
    | nil => exact ⟨x ++ "/", rfl⟩
    | cons y l2 =>
      obtain ⟨q, hq⟩ := ih
      refine ⟨x ++ "/" ++ q, ?_⟩
      rw [List.cons_append, joinSlash_cons_ne_nil x _ (by simp), hq,
        str_append_assoc (x ++ "/") q seg]

theorem append_ne_empty_right {a b : String} (h : ¬ b = "") : ¬ a ++ b = "" := by
  intro hc
  exact h (str_append_eq_empty hc).2

theorem toPosixPath_append (a b : String) :
    toPosixPath (a ++ b) = toPosixPath a ++ toPosixPath b := by
  refine str_ext ?_
  simp [toPosixPath, str_append_data]

theorem toPosixPath_fixed (s : String) (h : ∀ c ∈ s.data, ¬ c = '\\') :
    toPosixPath s = s := by
  refine str_ext ?_
  show s.data.map (fun c => if c = '\\' then '/' else c) = s.data
  have hcongr : ∀ c ∈ s.data,
      (fun c => if c = '\\' then '/' else c) c = (fun c => c) c :=
    fun c hc => if_neg (h c hc)
  rw [List.map_congr_left hcongr]
  exact List.map_id' s.data

theorem toLocalPath_ex (p : String) : ∃ q, toLocalPath p = q ++ p := by
  rw [toLocalPath]
  split
  · exact ⟨"", (str_empty_append p).symm⟩
  · exact ⟨"./", rfl⟩

theorem dirname_ne_empty (p : String) : ¬ dirname p = "" := by
  cases h : splitSlash p with
  | nil => rw [dirname, h]; simp
  | cons a l =>
    cases l with
    | nil => rw [dirname, h]; simp
    | cons b l2 =>
      rw [dirname, h]
      show ¬ (if joinSlash ((a :: b :: l2)).dropLast = "" then "/"
        else joinSlash ((a :: b :: l2)).dropLast) = ""
      split
      · simp
      · assumption

/-- The tail of the root rewrite keeps any non-degenerate final segment
suffix: rejoining a directory with a segment ending in `e` and then
posixifying/localizing produces a string ending in `e`. -/
theorem rewriteTail_suffix (d stem e : String)
    (hd : ¬ d = "") (he : ¬ e = "")
    (hslash : ∀ c ∈ (stem ++ e).data, ¬ c = '/')
    (hdot1 : ¬ stem ++ e = ".") (hdot2 : ¬ stem ++ e = "..")
    (hbs : ∀ c ∈ e.data, ¬ c = '\\') :
    ∃ q, toLocalPath (toPosixPath (pathJoin d (stem ++ e))) = q ++ e := by
  have hseg : ¬ stem ++ e = "" := append_ne_empty_right he
  have hjoin : pathJoin d (stem ++ e) = normalize (d ++ "/" ++ (stem ++ e)) := by
    rw [pathJoin]
    simp only [if_neg hd, if_neg hseg]
    rw [if_neg (by
      intro hc
      have := (str_append_eq_empty hc).2
      exact hseg this)]
  obtain ⟨q1, hq1⟩ : ∃ q1, normalize (d ++ "/" ++ (stem ++ e)) = q1 ++ (stem ++ e) := by
    rw [normalize]
    rw [splitSlash_append_seg d (stem ++ e) hslash]
    rw [normalizeSegs_concat _ _ _ hseg hdot1 hdot2]
    obtain ⟨q, hq⟩ := joinSlash_concat_ex
      (normalizeSegs (match (d ++ "/" ++ (stem ++ e)).data with
        | '/' :: _ => true
        | _ => false) (splitSlash d)) (stem ++ e)
    rw [hq]
    split
    · exact ⟨"/" ++ q, str_append_assoc "/" q (stem ++ e)⟩
    · rw [if_neg (append_ne_empty_right hseg)]
      exact ⟨q, rfl⟩
  rw [hjoin, hq1, ← str_append_assoc, toPosixPath_append, toPosixPath_fixed e hbs]
  obtain ⟨q4, hq4⟩ := toLocalPath_ex (toPosixPath (q1 ++ stem) ++ e)
  rw [hq4, ← str_append_assoc]
  exact ⟨q4 ++ toPosixPath (q1 ++ stem), rfl⟩

/-- C3: Extension policy — for a specifier resolved in the root phase,
when the specifier's own extension is textually identical to the resolved
file's extension the output keeps that extension (the rewrite ends in it);
otherwise the resolved extension is dropped from the output. -/
theorem extension_policy (fs : Fs) (source file : String)
    (pluginOpts : PluginOpts) (resolved : String)
    (hdot : ¬ strHead source = some '.')
    (hfound : searchRoots fs source (probeExtensions pluginOpts)
      (pluginOpts.root.getD []) = some resolved) :
    (extname source = extname resolved →
      mapModule fs source file pluginOpts =
        some (toLocalPath (toPosixPath
          (replaceExt (mapToRelative file resolved) (extname resolved))))) ∧
    (¬ extname source = extname resolved →
      mapModule fs source file pluginOpts =
        some (toLocalPath (toPosixPath
          (replaceExt (mapToRelative file resolved) "")))) ∧
    (extname source = extname resolved →
     ¬ extname resolved = "" →
     (∀ c ∈ (basename (mapToRelative file resolved)
        (extname (mapToRelative file resolved)) ++ extname resolved).data,
        ¬ c = '/') →
     ¬ (basename (mapToRelative file resolved)
        (extname (mapToRelative file resolved)) ++ extname resolved) = "." →
     ¬ (basename (mapToRelative file resolved)
        (extname (mapToRelative file resolved)) ++ extname resolved) = ".." →
     (∀ c ∈ (extname resolved).data, ¬ c = '\\') →
     ∃ q, mapModule fs source file pluginOpts = some (q ++ extname resolved)) := by
  have hmap := mapModule_eq_root file hdot hfound
  have hkeep : extname source = extname resolved →
      mapModule fs source file pluginOpts =
        some (toLocalPath (toPosixPath
          (replaceExt (mapToRelative file resolved) (extname resolved)))) := by
    intro h
    rw [hmap, rootRewrite]
    simp only [if_pos h.symm]
  refine ⟨hkeep, ?_, ?_⟩
  · intro h
    rw [hmap, rootRewrite]
    have hne : ¬ extname resolved = extname source := fun hc => h hc.symm
    simp only [if_neg hne]
  · intro h he hslash hdot1 hdot2 hbs
    obtain ⟨q, hq⟩ := rewriteTail_suffix (dirname (mapToRelative file resolved))
      (basename (mapToRelative file resolved) (extname (mapToRelative file resolved)))
      (extname resolved)
      (dirname_ne_empty _) he hslash hdot1 hdot2 hbs
    refine ⟨q, ?_⟩
    rw [hkeep h, replaceExt, hq]

theorem extension_policy_witness :
    mapModule (fun req base _ =>
        if base = "r1" ∧ req = "./sub/sub1.css" then some "r1/sub/sub1.css" else none)
      "sub/sub1.css" "unknown" ⟨some ["r1"], none, none⟩ =
      some "./r1/sub/sub1.css" ∧
    (∃ q, mapModule (fun req base _ =>
        if base = "r1" ∧ req = "./sub/sub1.css" then some "r1/sub/sub1.css" else none)
      "sub/sub1.css" "unknown" ⟨some ["r1"], none, none⟩ =
      some (q ++ extname "r1/sub/sub1.css")) ∧
    extname "r1/sub/sub1.css" = ".css" ∧
    mapModule (fun req base _ =>
        if base = "r1" ∧ req = "./sub1" then some "r1/sub1.js" else none)
      "sub1" "unknown" ⟨some ["r1"], none, none⟩ = some "./r1/sub1" ∧
    extname "./r1/sub1" = "" := by
  have hA := extension_policy
    (fun req base _ =>
      if base = "r1" ∧ req = "./sub/sub1.css" then some "r1/sub/sub1.css" else none)
    "sub/sub1.css" "unknown" ⟨some ["r1"], none, none⟩ "r1/sub/sub1.css"
    (by decide) (by decide)
  have hB := extension_policy
    (fun req base _ =>
      if base = "r1" ∧ req = "./sub1" then some "r1/sub1.js" else none)
    "sub1" "unknown" ⟨some ["r1"], none, none⟩ "r1/sub1.js"
    (by decide) (by decide)
  refine ⟨by rw [hA.1 (by decide)]; decide,
    hA.2.2 (by decide) (by decide) (by decide) (by decide) (by decide) (by decide),
    by decide,
    by rw [hB.2.1 (by decide)]; decide,
    by decide⟩

end ModuleResolver
